import Mathlib

/-!
# OmniPlan csv2svg: the business-day calendar and the date-to-pixel layout

A shallow embedding of `main.go`.

Modelling conventions.

* A `time.Time` is the number of seconds since the Unix epoch, in UTC, as an
  `Int` (the CSV layout `1/2/06, 3:04 PM` carries no zone, so every parsed
  timestamp is a whole minute of UTC; `time.Unix` is read in a UTC local zone).
  Day `0` (1 January 1970) is a Thursday.
* A `time.Duration` is a number of nanoseconds; `Time.Sub` saturates at the
  ends of the signed 64-bit range, as the library does.
* The floating-point expression `math.Round((diff.Hours() / 24) / 7)` is applied
  to a duration that `Truncate(24h)` has made a whole number of days `k` with
  `|k| ≤ 106751`: `diff.Hours()` and the division by `24` are exact, the quotient
  `k / 7` is at distance at least `1/14` from every half-integer, so the result
  is the integer nearest to `k / 7`; `roundDiv` computes it on integers.
* The `float64` argument of `addWeekdaysToDate` is a rational number; `int(x)`
  is truncation toward zero.  The product `1440.0 * (days - float64(daysInt))` is
  taken exactly; in `float64` it is rounded, which keeps it below `1440` and
  keeps its order in `days`, the two facts the proofs use of it.
* Go's `int` is 64 bits wide; pixel coordinates and counts are far below that
  range and are plain integers here.  Integer division is Go's (`Int.tdiv`,
  truncation toward zero), and a zero divisor aborts.
* A Go string is a list of characters.
-/

namespace Csv2Svg

/-! ## Constants -/

/-- The constant `W_PADDING`. -/
def W_PADDING : Int := 16

/-- Seconds in 24 hours. -/
def secondsPerDay : Int := 86400

/-- Nanoseconds in 24 hours: `time.Hour * 24` as a `time.Duration`. -/
def hours24 : Int := 86400000000000

/-- The largest `time.Duration`. -/
def maxDuration : Int := 9223372036854775807

/-- The smallest `time.Duration`. -/
def minDuration : Int := -9223372036854775808

/-! ## The `time` package -/

/-- `Time.Weekday` in UTC: `0` is Sunday, `6` is Saturday. -/
def weekday (t : Int) : Int := (t / secondsPerDay + 4) % 7

/-- `Time.AddDate(0, 0, days)` in UTC. -/
def addDate (t : Int) (days : Int) : Int := t + days * secondsPerDay

/-- `Time.Add(time.Minute * m)`. -/
def addMinutes (t : Int) (m : Int) : Int := t + m * 60

/-- `Time.Truncate(time.Hour * 24)` followed by `Unix()`: midnight of the day. -/
def truncateDay (t : Int) : Int := t - t % secondsPerDay

/-- `Time.Sub`: the difference as a duration in nanoseconds, saturating. -/
def timeSub (t u : Int) : Int :=
  let d := (t - u) * 1000000000
  if d > maxDuration then maxDuration
  else if d < minDuration then minDuration
  else d

/-- `Duration.Truncate(m)`: rounding toward zero to a multiple of `m`. -/
def durationTruncate (d m : Int) : Int :=
  if m ≤ 0 then d else d - Int.tmod d m

/-- The integer nearest to `a / b` for `b > 0`, halves away from zero:
`math.Round` of the quotient. -/
def roundDiv (a b : Int) : Int :=
  if 0 ≤ a then (2 * a + b) / (2 * b) else -((2 * (-a) + b) / (2 * b))

/-- Conversion `int(x)` of a float: truncation toward zero. -/
def truncToInt (x : ℚ) : Int := Int.tdiv x.num x.den

/-! ## BusinessCalendar -/

/-- The function `getWeekdaysBetween`.  After `Truncate` the difference `diff` is
a whole number of days, so `diff / hours24` is `diff.Hours() / 24` and `weeks` is
`math.Round` of a seventh of it. -/
def getWeekdaysBetween (start end_ : Int) : Int :=
  let offset := -(weekday start)
  let start1 := addDate start (-(weekday start))
  let offset := offset + weekday end_
  let offset := if weekday end_ = 0 then offset + 1 else offset
  let end1 := addDate end_ (-(weekday end_))
  let diff := durationTruncate (timeSub end1 start1) hours24
  let weeks := roundDiv (diff / hours24) 7
  weeks * 5 + offset

/-- The function `adjustForWeekend`: the two tests run one after the other, so a
Saturday moves to the Sunday and from there to the Monday. -/
def adjustForWeekend (date : Int) : Int :=
  let date := if weekday date = 6 then addDate date 1 else date
  let date := if weekday date = 0 then addDate date 1 else date
  date

/-- The loop of `addWeekdaysToDate`: `n` rounds of one calendar day forward and a
weekend adjustment. -/
def stepDays : Nat → Int → Int
  | 0, currentDate => currentDate
  | n + 1, currentDate => stepDays n (adjustForWeekend (addDate currentDate 1))

/-- The function `addWeekdaysToDate`. -/
def addWeekdaysToDate (date : Int) (days : ℚ) : Int :=
  let daysInt := truncToInt days
  let currentDate := stepDays daysInt.toNat date
  adjustForWeekend (addMinutes currentDate (truncToInt (1440 * (days - daysInt))))

/-- The day-by-day scan: the number of Monday-to-Friday days among the `n` days
that start at `start`. -/
def naiveWeekdays : Nat → Int → Int
  | 0, _ => 0
  | n + 1, start =>
    (if weekday start = 0 ∨ weekday start = 6 then 0 else 1)
      + naiveWeekdays n (addDate start 1)

/-! ## Data model -/

/-- The fields of `Task` that the layout reads. -/
structure Task where
  id : List Char
  start : Int
  end_ : Int
  isMilestone : Bool
deriving DecidableEq, Repr

/-- The type `Tick`. -/
structure Tick where
  x1 : Int
  x2 : Int
  startDate : Int
  durationBusinessDays : Int
deriving DecidableEq, Repr

/-! ## The level and zoom filter of `main` -/

/-- The scan of `strings.Split(s, sep)` for a one-character separator: `cur`
holds the piece being read, in reverse. -/
def splitAux (sep : Char) : List Char → List Char → List (List Char)
  | [], cur => [cur.reverse]
  | c :: cs, cur =>
    if c = sep then cur.reverse :: splitAux sep cs [] else splitAux sep cs (c :: cur)

/-- The call `strings.Split(s, ".")`. -/
def stringsSplit (s : List Char) : List (List Char) := splitAux '.' s []

/-- The call `strings.HasPrefix(s, pre)`. -/
def hasPrefix (s pre : List Char) : Bool := pre.isPrefixOf s

/-- The condition of the filter loop in `main`. -/
def keepTask (level : Int) (zoom : List Char) (t : Task) : Bool :=
  decide (((stringsSplit t.id).length : Int) ≤ level) &&
    (zoom == [] || t.id == zoom || hasPrefix t.id (zoom ++ ['.']))

/-- The filter loop of `main`.  `scrubbedTasks := tasks[:0]` shares the backing
array of `tasks`, so the state is that array together with `len(scrubbedTasks)`;
`append` writes at that index.  The first argument counts the iterations left,
the second is the loop index `t`. -/
def scrubLoop (level : Int) (zoom : List Char) : Nat → Nat → List Task → Nat → List Task × Nat
  | 0, _, arr, w => (arr, w)
  | k + 1, t, arr, w =>
    match arr[t]? with
    | none => (arr, w)
    | some task =>
      if keepTask level zoom task then scrubLoop level zoom k (t + 1) (arr.set w task) (w + 1)
      else scrubLoop level zoom k (t + 1) arr w

/-- The value of `tasks` after the filter loop of `main`. -/
def scrubTasks (level : Int) (zoom : List Char) (tasks : List Task) : List Task :=
  let r := scrubLoop level zoom tasks.length 0 tasks 0
  r.1.take r.2

/-! ## The date range of `main` -/

/-- One round of the loop that finds `minDate` and `maxDate`; `none` is `nil`. -/
def minMaxStep (acc : Option Int × Option Int) (t : Task) : Option Int × Option Int :=
  let minDate := match acc.1 with
    | none => some t.start
    | some m => if t.start < m then some t.start else some m
  let maxDate := match acc.2 with
    | none => some t.end_
    | some m => if t.end_ > m then some t.end_ else some m
  (minDate, maxDate)

/-- The pair `minDate`, `maxDate` of `main`, the latter one day past the latest
end; `none` when there is no task (a nil dereference). -/
def dateBounds (tasks : List Task) : Option (Int × Int) :=
  match tasks.foldl minMaxStep (none, none) with
  | (some minDate, some maxDate) => some (minDate, addDate maxDate 1)
  | _ => none

/-! ## TickGenerator -/

/-- Integer division of Go: `none` is the run-time panic on a zero divisor. -/
def goDiv (a b : Int) : Option Int := if b = 0 then none else some (Int.tdiv a b)

/-- The tick loop of `main`, from pixel cursor `i` and running date
`currentDate`; it yields the ticks appended from there on.  The first argument
bounds the number of iterations; `none` means the bound was reached with the loop
condition still true. -/
def tickLoop (dayWidth tickSkips width : Int) : Nat → Int → Int → Option (List Tick)
  | 0, i, _ => if i < width - W_PADDING * 3 then none else some []
  | fuel + 1, i, currentDate =>
    if i < width - W_PADDING * 3 then
      let currentDate := addWeekdaysToDate currentDate tickSkips
      (tickLoop dayWidth tickSkips width fuel (i + dayWidth * tickSkips) currentDate).map
        (fun rest =>
          { x1 := i
            x2 := i + dayWidth * tickSkips - 1
            startDate := truncateDay currentDate
            durationBusinessDays := tickSkips } :: rest)
    else some []

/-- The slice `tickPositions` of `main`: the first tick and those of the loop.
With a positive step the cursor passes `width - W_PADDING*3` within that many
rounds, so `none` is a loop that does not end. -/
def tickPositions (minDate dayWidth tickSkips width : Int) : Option (List Tick) :=
  (tickLoop dayWidth tickSkips width (width - W_PADDING * 3).toNat
      (dayWidth * tickSkips) minDate).map
    (fun rest =>
      { x1 := 0
        x2 := dayWidth * tickSkips - 1
        startDate := truncateDay minDate
        durationBusinessDays := tickSkips } :: rest)

/-- The value `width` of `main` that the layout uses: the flag `-w 0` stands for
the width `1024`. -/
def driverWidth (widthFlag : Int) : Int := if widthFlag = 0 then 1024 else widthFlag

/-- The value `dayWidth` of `main` for the tasks left by the filter, with the flag
`-w`: the drawable width divided by the business-day span of the date range. -/
def driverDayWidth (widthFlag : Int) (tasks : List Task) : Option Int :=
  match dateBounds tasks with
  | none => none
  | some (minDate, maxDate) =>
    let dateRange := getWeekdaysBetween minDate maxDate
    let width := driverWidth widthFlag
    goDiv (width - W_PADDING * 2) dateRange

/-- The tick table `main` builds for the tasks left by the filter, with the flags
`-w` and `-t`. -/
def driverTicks (widthFlag tickSkips : Int) (tasks : List Task) : Option (List Tick) :=
  match dateBounds tasks, driverDayWidth widthFlag tasks with
  | some (minDate, _), some dayWidth =>
    tickPositions minDate dayWidth tickSkips (driverWidth widthFlag)
  | _, _ => none

/-! ## PositionResolver -/

/-- The outcomes of `getBarPositions`: the pair it returns, the `log.Fatalf`
branch, or the panic of a division by a zero `durationBusinessDays`. -/
inductive BarResult where
  | positions (x1 x2 : Int)
  | fatal
  | divideByZero
deriving DecidableEq, Repr

/-- The loop of `getBarPositions` and the code after it. -/
def barLoop (start durationDays : Int) : List Tick → BarResult
  | [] =>
    let x1 : Int := 0
    let x2 : Int := 0
    if x1 = 0 then BarResult.fatal else BarResult.positions x1 x2
  | tick :: rest =>
    if tick.startDate = truncateDay start then
      match goDiv (tick.x2 - tick.x1) tick.durationBusinessDays with
      | none => BarResult.divideByZero
      | some perDay =>
        let x1 := tick.x1
        let x2 := x1 + perDay * durationDays
        BarResult.positions x1 x2
    else if tick.startDate > truncateDay start then
      let daysAdj := getWeekdaysBetween start tick.startDate + 1
      match goDiv (tick.x2 - tick.x1) tick.durationBusinessDays with
      | none => BarResult.divideByZero
      | some perDay =>
        let x1 := tick.x1 - perDay * daysAdj
        let x2 := x1 + perDay * durationDays
        BarResult.positions x1 x2
    else barLoop start durationDays rest

/-- The function `getBarPositions`. -/
def getBarPositions (ticks : List Tick) (start end_ : Int) : BarResult :=
  let durationDays := getWeekdaysBetween start end_
  let durationDays := if durationDays = 0 then durationDays + 1 else durationDays
  barLoop start durationDays ticks

/-! ## Properties stated by the specification -/

/-- The relation between a tick and the next one: the pixel intervals are
adjacent and the start date grows. -/
def Consecutive (a b : Tick) : Prop := a.x2 + 1 = b.x1 ∧ a.startDate < b.startDate

instance : DecidableRel Consecutive :=
  fun _ _ => inferInstanceAs (Decidable (_ ∧ _))

/-- The number of dot-separated segments of an id: one more than its number of
dots. -/
def segmentCount (id : List Char) : Nat := id.count '.' + 1

/-- The retention condition of the specification: the depth is at most `level`
and the zoom is empty, or is the id, or followed by a dot starts the id. -/
def Retained (level : Int) (zoom : List Char) (t : Task) : Prop :=
  (segmentCount t.id : Int) ≤ level ∧ (zoom = [] ∨ t.id = zoom ∨ zoom ++ ['.'] <+: t.id)

instance (level : Int) (zoom : List Char) : DecidablePred (Retained level zoom) :=
  fun _ => inferInstanceAs (Decidable (_ ∧ _))

/-- The tasks of the filtering example, with the ids `1`, `1.1`, `1.2` and `2`. -/
def exampleTasks : List Task :=
  [ { id := ['1'], start := 1704099600, end_ := 1704301200, isMilestone := false },
    { id := ['1', '.', '1'], start := 1704099600, end_ := 1704099600, isMilestone := true },
    { id := ['1', '.', '2'], start := 1704186000, end_ := 1704214800, isMilestone := false },
    { id := ['2'], start := 1704358800, end_ := 1704474000, isMilestone := false } ]

/-- The three tasks of the end-to-end example: `1` from Monday 1 January 2024 to
Wednesday 3 January, the milestone `1.1` on that Monday, and `2` from Thursday 4
January to Friday 5 January; the days start at 08:00 and end at 17:00. -/
def endToEndTasks : List Task :=
  [ { id := ['1'], start := 1704096000, end_ := 1704301200, isMilestone := false },
    { id := ['1', '.', '1'], start := 1704096000, end_ := 1704096000, isMilestone := true },
    { id := ['2'], start := 1704355200, end_ := 1704474000, isMilestone := false } ]

/-- A plan of one task that runs from Monday 1 January 2024, 08:00, to Monday 5
January 2026, 17:00. -/
def twoYearTasks : List Task :=
  [ { id := ['1'], start := 1704096000, end_ := 1767632400, isMilestone := false } ]

/-- A plan of two one-day tasks, on Monday 1 January 2024 and on Tuesday 26 March
2024, from 08:00 to 17:00: a date range of 62 business days. -/
def quarterTasks : List Task :=
  [ { id := ['1'], start := 1704096000, end_ := 1704128400, isMilestone := false },
    { id := ['2'], start := 1711440000, end_ := 1711472400, isMilestone := false } ]

/-! ## Calendar lemmas -/

/-- The adjusted date is a working day. -/
theorem weekday_adjustForWeekend (d : Int) :
    weekday (adjustForWeekend d) ≠ 0 ∧ weekday (adjustForWeekend d) ≠ 6 := by
  simp only [adjustForWeekend, weekday, addDate, secondsPerDay]
  split_ifs <;> omega

/-- A working day is left as it is. -/
theorem adjustForWeekend_of_weekday (d : Int) (h0 : weekday d ≠ 0) (h6 : weekday d ≠ 6) :
    adjustForWeekend d = d := by
  simp only [adjustForWeekend, weekday, addDate, secondsPerDay] at *
  split_ifs <;> omega

/-- The adjustment never moves a date back. -/
theorem le_adjustForWeekend (d : Int) : d ≤ adjustForWeekend d := by
  simp only [adjustForWeekend, weekday, addDate, secondsPerDay]
  split_ifs <;> omega

/-- The loop unrolled at its last round. -/
theorem stepDays_succ (n : Nat) (d : Int) :
    stepDays (n + 1) d = adjustForWeekend (addDate (stepDays n d) 1) := by
  induction n generalizing d with
  | zero => rfl
  | succ n ih => rw [stepDays, ih]; rfl

/-- A whole number converts to itself. -/
theorem truncToInt_intCast (k : Int) : truncToInt (k : ℚ) = k := by
  simp [truncToInt]

/-- On non-negative amounts the conversion is the floor. -/
theorem truncToInt_eq_floor (x : ℚ) (hx : 0 ≤ x) : truncToInt x = ⌊x⌋ := by
  rw [truncToInt, Rat.floor_def]
  exact Int.tdiv_eq_ediv (Rat.num_nonneg.mpr hx) (by positivity)

/-- After at least one round the running date is a working day. -/
theorem weekday_stepDays_succ (n : Nat) (d : Int) :
    weekday (stepDays (n + 1) d) ≠ 0 ∧ weekday (stepDays (n + 1) d) ≠ 6 := by
  rw [stepDays_succ]; exact weekday_adjustForWeekend _

/-- Each round moves the running date at least one day forward. -/
theorem stepDays_succ_ge (n : Nat) (d : Int) :
    stepDays n d + secondsPerDay ≤ stepDays (n + 1) d := by
  rw [stepDays_succ]
  have := le_adjustForWeekend (addDate (stepDays n d) 1)
  simp only [addDate] at *
  omega

/-- After `k` more rounds the running date is at least `k` days later. -/
theorem stepDays_mono_add (n k : Nat) (d : Int) :
    stepDays n d + k * secondsPerDay ≤ stepDays (n + k) d := by
  induction k with
  | zero => simp
  | succ k ih =>
    have := stepDays_succ_ge (n + k) d
    rw [← Nat.add_assoc]
    push_cast
    simp only [secondsPerDay] at *
    omega

/-- The value of `addWeekdaysToDate` at a whole number of days. -/
theorem addWeekdaysToDate_intCast (d k : Int) :
    addWeekdaysToDate d (k : ℚ) = adjustForWeekend (stepDays k.toNat d) := by
  simp [addWeekdaysToDate, truncToInt_intCast, addMinutes, truncToInt]

/-- From one whole day on, `addWeekdaysToDate` is the running date of the loop. -/
theorem addWeekdaysToDate_intCast_pos (d k : Int) (hk : 1 ≤ k) :
    addWeekdaysToDate d (k : ℚ) = stepDays k.toNat d := by
  rw [addWeekdaysToDate_intCast]
  obtain ⟨n, hn⟩ : ∃ n : Nat, k.toNat = n + 1 := ⟨k.toNat - 1, by omega⟩
  rw [hn]
  exact adjustForWeekend_of_weekday _ (weekday_stepDays_succ n d).1 (weekday_stepDays_succ n d).2

/-- The running date grows with the number of rounds. -/
theorem stepDays_le_of_le {n m : Nat} (h : n ≤ m) (d : Int) : stepDays n d ≤ stepDays m d := by
  obtain ⟨k, rfl⟩ := Nat.exists_eq_add_of_le h
  have := stepDays_mono_add n k d
  have hk : (0 : Int) ≤ (k : Int) * secondsPerDay := by
    simp only [secondsPerDay]; omega
  omega

/-- On whole days the results grow strictly, from a working day or from one whole
day on. -/
theorem adjust_stepDays_lt (d : Int) {n m : Nat} (h : n < m)
    (hd : (weekday d ≠ 0 ∧ weekday d ≠ 6) ∨ 1 ≤ n) :
    adjustForWeekend (stepDays n d) < adjustForWeekend (stepDays m d) := by
  obtain ⟨k, rfl⟩ : ∃ k, m = n + (k + 1) := ⟨m - n - 1, by omega⟩
  have hm : adjustForWeekend (stepDays (n + (k + 1)) d) = stepDays (n + (k + 1)) d :=
    adjustForWeekend_of_weekday _ (weekday_stepDays_succ (n + k) d).1
      (weekday_stepDays_succ (n + k) d).2
  have hn : adjustForWeekend (stepDays n d) = stepDays n d := by
    rcases hd with hd | hd
    · cases n with
      | zero => exact adjustForWeekend_of_weekday _ hd.1 hd.2
      | succ n =>
        exact adjustForWeekend_of_weekday _ (weekday_stepDays_succ n d).1
          (weekday_stepDays_succ n d).2
    · obtain ⟨j, rfl⟩ : ∃ j, n = j + 1 := ⟨n - 1, by omega⟩
      exact adjustForWeekend_of_weekday _ (weekday_stepDays_succ j d).1
        (weekday_stepDays_succ j d).2
  rw [hm, hn]
  have := stepDays_mono_add n (k + 1) d
  push_cast at this
  simp only [secondsPerDay] at this
  omega

/-- Within one day after a working day the weekend adjustment keeps the order. -/
theorem adjust_addMinutes_mono (x p q : Int) (h0 : weekday x ≠ 0) (h6 : weekday x ≠ 6)
    (hp : 0 ≤ p) (hpq : p ≤ q) (hq : q < 1440) :
    adjustForWeekend (addMinutes x p) ≤ adjustForWeekend (addMinutes x q) := by
  simp only [adjustForWeekend, weekday, addDate, addMinutes, secondsPerDay] at *
  split_ifs <;> omega

/-- A part of a day after a working day ends no later than the next round of the
loop. -/
theorem adjust_addMinutes_le_step (x p : Int) (h0 : weekday x ≠ 0) (h6 : weekday x ≠ 6)
    (hp : p < 1440) :
    adjustForWeekend (addMinutes x p) ≤ adjustForWeekend (addDate x 1) := by
  simp only [adjustForWeekend, weekday, addDate, addMinutes, secondsPerDay] at *
  split_ifs <;> omega

/-- The whole minutes of the fractional part lie within one day. -/
theorem minutes_bounds (a : ℚ) (ha : 0 ≤ a) :
    0 ≤ truncToInt (1440 * (a - (truncToInt a : ℚ))) ∧
      truncToInt (1440 * (a - (truncToInt a : ℚ))) < 1440 := by
  rw [truncToInt_eq_floor a ha]
  have h1 : (0 : ℚ) ≤ a - ⌊a⌋ := sub_nonneg.mpr (Int.floor_le a)
  have h2 : a - ⌊a⌋ < 1 := by linarith [Int.lt_floor_add_one a]
  have h3 : (0 : ℚ) ≤ 1440 * (a - ⌊a⌋) := by positivity
  rw [truncToInt_eq_floor _ h3]
  constructor
  · exact Int.floor_nonneg.mpr h3
  · rw [Int.floor_lt]; push_cast; linarith

/-- With equal whole parts, the whole minutes follow the order of the amounts. -/
theorem minutes_mono (a b : ℚ) (ha : 0 ≤ a) (hab : a ≤ b)
    (hfl : truncToInt a = truncToInt b) :
    truncToInt (1440 * (a - (truncToInt a : ℚ))) ≤
      truncToInt (1440 * (b - (truncToInt b : ℚ))) := by
  have hb : 0 ≤ b := le_trans ha hab
  rw [← hfl]
  rw [truncToInt_eq_floor a ha]
  have h1 : (0 : ℚ) ≤ a - ⌊a⌋ := sub_nonneg.mpr (Int.floor_le a)
  have h3 : (0 : ℚ) ≤ 1440 * (a - ⌊a⌋) := by positivity
  have h4 : (0 : ℚ) ≤ 1440 * (b - ⌊a⌋) := by nlinarith
  rw [truncToInt_eq_floor _ h3, truncToInt_eq_floor _ h4]
  apply Int.floor_le_floor
  linarith

/-- The order of `addWeekdaysToDate` in its amount, from a working day or from one
whole day on. -/
theorem addWeekdaysToDate_mono_aux (d : Int) (a b : ℚ) (ha : 0 ≤ a) (hab : a ≤ b)
    (hd : (weekday d ≠ 0 ∧ weekday d ≠ 6) ∨ 1 ≤ a) :
    addWeekdaysToDate d a ≤ addWeekdaysToDate d b := by
  have hb : 0 ≤ b := le_trans ha hab
  have hna : truncToInt a = ⌊a⌋ := truncToInt_eq_floor a ha
  have hnb : truncToInt b = ⌊b⌋ := truncToInt_eq_floor b hb
  have hfl : truncToInt a ≤ truncToInt b := by
    rw [hna, hnb]; exact Int.floor_le_floor hab
  have hna0 : 0 ≤ truncToInt a := by rw [hna]; exact Int.floor_nonneg.mpr ha
  have hx : weekday (stepDays (truncToInt a).toNat d) ≠ 0 ∧
      weekday (stepDays (truncToInt a).toNat d) ≠ 6 := by
    by_cases h1 : 1 ≤ truncToInt a
    · obtain ⟨j, hj⟩ : ∃ j : Nat, (truncToInt a).toNat = j + 1 :=
        ⟨(truncToInt a).toNat - 1, by omega⟩
      rw [hj]; exact weekday_stepDays_succ j d
    · rcases hd with hd | hd
      · have : (truncToInt a).toNat = 0 := by omega
        rw [this]; exact hd
      · exfalso
        apply h1
        rw [hna]
        exact Int.le_floor.mpr (by exact_mod_cast hd)
  have hma := minutes_bounds a ha
  have hmb := minutes_bounds b hb
  unfold addWeekdaysToDate
  simp only []
  rcases hfl.lt_or_eq with hlt | heq
  · have hstep : (truncToInt a).toNat + 1 ≤ (truncToInt b).toNat := by omega
    calc adjustForWeekend (addMinutes (stepDays (truncToInt a).toNat d)
            (truncToInt (1440 * (a - (truncToInt a : ℚ)))))
        ≤ adjustForWeekend (addDate (stepDays (truncToInt a).toNat d) 1) :=
          adjust_addMinutes_le_step _ _ hx.1 hx.2 hma.2
      _ = stepDays ((truncToInt a).toNat + 1) d := (stepDays_succ _ _).symm
      _ ≤ stepDays (truncToInt b).toNat d := stepDays_le_of_le hstep d
      _ ≤ addMinutes (stepDays (truncToInt b).toNat d)
            (truncToInt (1440 * (b - (truncToInt b : ℚ)))) := by
          simp only [addMinutes]; omega
      _ ≤ _ := le_adjustForWeekend _
  · have hm := minutes_mono a b ha hab heq
    rw [← heq] at hmb ⊢
    rw [← heq] at hm
    exact adjust_addMinutes_mono _ _ _ hx.1 hx.2 hma.1 hm hmb.2

/-- From a Saturday or a Sunday the weekend adjustment alone and one round of the
loop end on the same Monday. -/
theorem adjustForWeekend_eq_step_of_weekend (d : Int) (h : weekday d = 0 ∨ weekday d = 6) :
    adjustForWeekend d = adjustForWeekend (addDate d 1) := by
  simp only [adjustForWeekend, weekday, addDate, secondsPerDay] at *
  split_ifs <;> omega

/-- From a Saturday or a Sunday the amounts `0` and `1` give the same date. -/
theorem adjust_stepDays_zero_eq_one (d : Int) (h : weekday d = 0 ∨ weekday d = 6) :
    adjustForWeekend (stepDays 0 d) = adjustForWeekend (stepDays 1 d) := by
  rw [adjustForWeekend_of_weekday (stepDays 1 d) (weekday_stepDays_succ 0 d).1
    (weekday_stepDays_succ 0 d).2]
  exact adjustForWeekend_eq_step_of_weekend d h

/-- From a Saturday or a Sunday the amount `0` gives an earlier date than every
amount from `2` on. -/
theorem adjust_stepDays_zero_lt (d : Int) (h : weekday d = 0 ∨ weekday d = 6) {m : Nat}
    (hm : 2 ≤ m) : adjustForWeekend (stepDays 0 d) < adjustForWeekend (stepDays m d) := by
  rw [adjust_stepDays_zero_eq_one d h]
  exact adjust_stepDays_lt d (by omega) (Or.inr (le_refl 1))

/-- A part of a day after any date ends no later than two rounds of the loop. -/
theorem adjust_addMinutes_le_two_steps (d p : Int) (hp0 : 0 ≤ p) (hp : p < 1440) :
    adjustForWeekend (addMinutes d p) ≤ stepDays 2 d := by
  have h2 : stepDays 2 d = adjustForWeekend (addDate (adjustForWeekend (addDate d 1)) 1) := rfl
  rw [h2]
  have hw := weekday_adjustForWeekend (addDate d 1)
  have hle := le_adjustForWeekend (addDate d 1)
  generalize adjustForWeekend (addDate d 1) = y at *
  have hy := le_adjustForWeekend (addDate y 1)
  generalize adjustForWeekend (addDate y 1) = z at *
  simp only [adjustForWeekend, weekday, addDate, addMinutes, secondsPerDay] at *
  split_ifs <;> omega

/-- The weekday of the midnight of day `a`. -/
theorem weekday_days (a : Int) : weekday (a * 86400) = (a + 4) % 7 := by
  simp only [weekday, secondsPerDay]; omega

/-- The scan extended by one day at its end. -/
theorem naiveWeekdays_succ_end (n : Nat) (s : Int) :
    naiveWeekdays (n + 1) s =
      naiveWeekdays n s + (if weekday (addDate s n) = 0 ∨ weekday (addDate s n) = 6 then 0 else 1) := by
  induction n generalizing s with
  | zero => simp [naiveWeekdays, addDate]
  | succ n ih =>
    rw [naiveWeekdays, ih (addDate s 1), naiveWeekdays]
    have : addDate (addDate s 1) n = addDate s ((n + 1 : Nat) : Int) := by
      simp only [addDate]; push_cast; ring
    rw [this]; ring

/-- The value of `getWeekdaysBetween` on two midnights at most 100000 days apart. -/
theorem getWeekdaysBetween_days (a b : Int) (hab : a ≤ b) (hb : b - a ≤ 100000) :
    getWeekdaysBetween (a * 86400) (b * 86400) =
      ((b - (b + 4) % 7) - (a - (a + 4) % 7)) / 7 * 5 - (a + 4) % 7 + (b + 4) % 7
        + (if (b + 4) % 7 = 0 then 1 else 0) := by
  have hk : ∃ k : Int, (b - (b + 4) % 7) - (a - (a + 4) % 7) = 7 * k ∧ 0 ≤ k ∧ k ≤ 14287 :=
    ⟨((b - (b + 4) % 7) - (a - (a + 4) % 7)) / 7, by omega, by omega, by omega⟩
  obtain ⟨k, hk, hk0, hk1⟩ := hk
  have hsub : timeSub (addDate (b * 86400) (-((b + 4) % 7))) (addDate (a * 86400) (-((a + 4) % 7)))
      = k * 7 * hours24 := by
    simp only [timeSub, addDate, secondsPerDay, maxDuration, minDuration, hours24]
    split_ifs <;> omega
  have htr : durationTruncate (k * 7 * hours24) hours24 = k * 7 * hours24 := by
    rw [durationTruncate, if_neg (by decide)]
    rw [Int.tmod_eq_emod (by simp only [hours24]; omega) (by decide)]
    simp
  unfold getWeekdaysBetween
  simp only [weekday_days, hsub, htr]
  have hdiv : k * 7 * hours24 / hours24 = k * 7 := Int.mul_ediv_cancel _ (by decide)
  rw [hdiv, hk]
  simp only [roundDiv]
  split_ifs <;> omega

/-- From a start that is not a Sunday, `getWeekdaysBetween` on two midnights at
most 100000 days apart is the count of the day-by-day scan. -/
theorem getWeekdaysBetween_eq_naive (a : Int) (n : Nat) (hs : weekday (a * 86400) ≠ 0)
    (hn : n ≤ 100000) :
    getWeekdaysBetween (a * 86400) ((a + n) * 86400) = naiveWeekdays n (a * 86400) := by
  rw [weekday_days] at hs
  induction n with
  | zero =>
    rw [getWeekdaysBetween_days a (a + (0 : Nat)) (by omega) (by omega)]
    simp only [naiveWeekdays]
    split_ifs <;> omega
  | succ n ih =>
    have ih := ih (by omega)
    rw [naiveWeekdays_succ_end, ← ih]
    rw [getWeekdaysBetween_days a (a + (n : Nat)) (by omega) (by omega)]
    rw [getWeekdaysBetween_days a (a + ((n + 1 : Nat) : Int)) (by omega) (by omega)]
    have hw : addDate (a * 86400) n = (a + n) * 86400 := by
      simp only [addDate, secondsPerDay]; ring
    rw [hw, weekday_days]
    push_cast
    split_ifs <;> omega

/-- From a Sunday, `getWeekdaysBetween` on two midnights at most 100000 days
apart is one more than the count of the day-by-day scan. -/
theorem getWeekdaysBetween_from_sunday (a : Int) (n : Nat) (hs : weekday (a * 86400) = 0)
    (hn : n ≤ 100000) :
    getWeekdaysBetween (a * 86400) ((a + n) * 86400) = naiveWeekdays n (a * 86400) + 1 := by
  rw [weekday_days] at hs
  induction n with
  | zero =>
    rw [getWeekdaysBetween_days a (a + (0 : Nat)) (by omega) (by omega)]
    simp only [naiveWeekdays]
    split_ifs <;> omega
  | succ n ih =>
    have ih := ih (by omega)
    rw [naiveWeekdays_succ_end, add_right_comm, ← ih]
    rw [getWeekdaysBetween_days a (a + (n : Nat)) (by omega) (by omega)]
    rw [getWeekdaysBetween_days a (a + ((n + 1 : Nat) : Int)) (by omega) (by omega)]
    have hw : addDate (a * 86400) n = (a + n) * 86400 := by
      simp only [addDate, secondsPerDay]; ring
    rw [hw, weekday_days]
    push_cast
    split_ifs <;> omega

/-- Between two Mondays at most 100000 days apart, `getWeekdaysBetween` is five
days for each week. -/
theorem getWeekdaysBetween_mondays (a b : Int) (hab : a ≤ b) (hb : b - a ≤ 100000)
    (ha1 : weekday (a * 86400) = 1) (hb1 : weekday (b * 86400) = 1) :
    getWeekdaysBetween (a * 86400) (b * 86400) = (b - a) / 7 * 5 := by
  rw [weekday_days] at ha1 hb1
  rw [getWeekdaysBetween_days a b hab hb]
  split_ifs <;> omega

/-! ## Tick table lemmas -/

/-- One step of the tick loop moves the midnight of the running date forward. -/
theorem truncateDay_addWeekdaysToDate_lt (cur K : Int) (hK : 1 ≤ K) :
    truncateDay cur < truncateDay (addWeekdaysToDate cur (K : ℚ)) := by
  rw [addWeekdaysToDate_intCast_pos cur K hK]
  have h := stepDays_mono_add 0 K.toNat cur
  have hK2 : (1 : Int) ≤ (K.toNat : Int) := by omega
  simp only [Nat.zero_add, stepDays, secondsPerDay] at h
  have h2 : cur + 86400 ≤ stepDays K.toNat cur := by nlinarith
  simp only [truncateDay, secondsPerDay]
  omega

/-- The tick loop with a positive step and enough rounds: it ends, its ticks
follow one another from the tick before, each is `dayWidth * tickSkips` pixels
wide with `tickSkips` days, and their number is the least `n` with
`i + n * step` at or past the bound. -/
theorem tickLoop_spec (dayWidth tickSkips width : Int) (hK : 1 ≤ tickSkips)
    (hstep : 1 ≤ dayWidth * tickSkips) :
    ∀ (fuel : Nat) (i cur : Int) (prev : Tick),
      prev.x2 + 1 = i → prev.startDate = truncateDay cur →
      (width - W_PADDING * 3 - i).toNat ≤ fuel →
      ∃ ticks, tickLoop dayWidth tickSkips width fuel i cur = some ticks ∧
        List.Chain Consecutive prev ticks ∧
        width - W_PADDING * 3 ≤ i + ticks.length * (dayWidth * tickSkips) ∧
        (ticks ≠ [] →
          i + ((ticks.length : Int) - 1) * (dayWidth * tickSkips) < width - W_PADDING * 3) ∧
        ∀ t ∈ ticks, t.x2 - t.x1 = dayWidth * tickSkips - 1 ∧
          t.durationBusinessDays = tickSkips := by
  intro fuel
  induction fuel with
  | zero =>
    intro i cur prev _ _ hf
    refine ⟨[], ?_, List.Chain.nil, ?_, by simp, by simp⟩
    · have : ¬ i < width - W_PADDING * 3 := by omega
      simp [tickLoop, this]
    · simp; omega
  | succ fuel ih =>
    intro i cur prev hx hd hf
    by_cases hlt : i < width - W_PADDING * 3
    · obtain ⟨rest, hrest, hchain, hlen, hlast, hall⟩ :=
        ih (i + dayWidth * tickSkips) (addWeekdaysToDate cur (tickSkips : ℚ))
          { x1 := i
            x2 := i + dayWidth * tickSkips - 1
            startDate := truncateDay (addWeekdaysToDate cur (tickSkips : ℚ))
            durationBusinessDays := tickSkips }
          (by simp) rfl (by omega)
      refine ⟨{ x1 := i
                x2 := i + dayWidth * tickSkips - 1
                startDate := truncateDay (addWeekdaysToDate cur (tickSkips : ℚ))
                durationBusinessDays := tickSkips } :: rest, ?_, ?_, ?_, ?_, ?_⟩
      · simp only [tickLoop, if_pos hlt, hrest, Option.map_some']
      · refine List.Chain.cons ⟨hx, ?_⟩ hchain
        rw [hd]
        exact truncateDay_addWeekdaysToDate_lt cur tickSkips hK
      · simp only [List.length_cons]
        push_cast
        have : ((rest.length : Int) + 1) * (dayWidth * tickSkips)
            = dayWidth * tickSkips + rest.length * (dayWidth * tickSkips) := by ring
        rw [this]
        omega
      · intro _
        simp only [List.length_cons]
        push_cast
        by_cases hr : rest = []
        · subst hr; simp; exact hlt
        · have h1 := hlast hr
          have : ((rest.length : Int) + 1 - 1) * (dayWidth * tickSkips)
              = dayWidth * tickSkips + ((rest.length : Int) - 1) * (dayWidth * tickSkips) := by
            ring
          rw [this]
          omega
      · intro t ht
        rcases List.mem_cons.mp ht with rfl | ht
        · exact ⟨by simp only []; ring, rfl⟩
        · exact hall t ht
    · refine ⟨[], ?_, List.Chain.nil, ?_, by simp, by simp⟩
      · simp [tickLoop, hlt]
      · simp; omega

/-- The tick table with a positive step: the loop ends, the table starts with the
tick at pixel `0` on the midnight of `minDate`, consecutive ticks follow one
another, every tick is `dayWidth * tickSkips` pixels wide with `tickSkips` days,
and the number of ticks is the least `n ≥ 1` with `n * step` at or past
`width - W_PADDING * 3`. -/
theorem tickPositions_spec (minDate dayWidth tickSkips width : Int) (hK : 1 ≤ tickSkips)
    (hdw : 1 ≤ dayWidth) :
    ∃ rest, tickPositions minDate dayWidth tickSkips width
        = some ({ x1 := 0
                  x2 := dayWidth * tickSkips - 1
                  startDate := truncateDay minDate
                  durationBusinessDays := tickSkips } :: rest) ∧
      List.Chain Consecutive
        { x1 := 0
          x2 := dayWidth * tickSkips - 1
          startDate := truncateDay minDate
          durationBusinessDays := tickSkips } rest ∧
      width - W_PADDING * 3 ≤ ((rest.length : Int) + 1) * (dayWidth * tickSkips) ∧
      (rest ≠ [] → (rest.length : Int) * (dayWidth * tickSkips) < width - W_PADDING * 3) ∧
      ∀ t ∈ rest, t.x2 - t.x1 = dayWidth * tickSkips - 1 ∧
        t.durationBusinessDays = tickSkips := by
  have hstep : 1 ≤ dayWidth * tickSkips := by nlinarith
  obtain ⟨rest, hrest, hchain, hlen, hlast, hall⟩ :=
    tickLoop_spec dayWidth tickSkips width hK hstep (width - W_PADDING * 3).toNat
      (dayWidth * tickSkips) minDate
      { x1 := 0
        x2 := dayWidth * tickSkips - 1
        startDate := truncateDay minDate
        durationBusinessDays := tickSkips }
      (by simp) rfl (by omega)
  refine ⟨rest, ?_, hchain, ?_, ?_, hall⟩
  · simp only [tickPositions, hrest, Option.map_some']
  · have : ((rest.length : Int) + 1) * (dayWidth * tickSkips)
        = dayWidth * tickSkips + rest.length * (dayWidth * tickSkips) := by ring
    rw [this]; exact hlen
  · intro hr
    have h1 := hlast hr
    have : (rest.length : Int) * (dayWidth * tickSkips)
        = dayWidth * tickSkips + ((rest.length : Int) - 1) * (dayWidth * tickSkips) := by ring
    rw [this]; exact h1

/-- Go's quotient of `a` by a positive `s`, when it is positive, brackets `a`. -/
theorem tdiv_bounds (a s : Int) (hs : 1 ≤ s) (hq : 1 ≤ Int.tdiv a s) :
    Int.tdiv a s * s ≤ a ∧ a < Int.tdiv a s * s + s := by
  have ha : 0 ≤ a := by
    by_contra hneg
    have h1 : 0 ≤ Int.tdiv (-a) s := Int.tdiv_nonneg (by omega) (by omega)
    have h2 : Int.tdiv (-a) s = -(Int.tdiv a s) := Int.neg_tdiv a s
    omega
  rw [Int.tdiv_eq_ediv ha (by omega)]
  constructor
  · exact Int.ediv_mul_le a (by omega)
  · have := Int.lt_ediv_add_one_mul_self a (show 0 < s by omega)
    linarith

/-! ## Filter lemmas -/

/-- `strings.Split` yields one piece more than there are separators. -/
theorem splitAux_length (sep : Char) (s cur : List Char) :
    (splitAux sep s cur).length = s.count sep + 1 := by
  induction s generalizing cur with
  | nil => simp [splitAux]
  | cons c cs ih =>
    rw [splitAux]
    by_cases h : c = sep
    · subst h; simp [ih]
    · rw [if_neg h, ih, List.count_cons_of_ne (Ne.symm h)]

/-- The condition of the filter loop is the retention condition. -/
theorem keepTask_iff (level : Int) (zoom : List Char) (t : Task) :
    keepTask level zoom t = true ↔ Retained level zoom t := by
  simp only [keepTask, stringsSplit, splitAux_length, hasPrefix, Retained, segmentCount,
    Bool.and_eq_true, Bool.or_eq_true, decide_eq_true_eq, beq_iff_eq, List.isPrefixOf_iff_prefix,
    or_assoc]

/-- The filter loop writes behind its read index: what it leaves is what it had
written followed by the kept tasks among those not yet read. -/
theorem scrubLoop_spec (level : Int) (zoom : List Char) (orig : List Task) :
    ∀ (k t : Nat) (arr : List Task) (w : Nat), t + k = orig.length →
      arr.length = orig.length → w ≤ t → arr.drop t = orig.drop t →
      (scrubLoop level zoom k t arr w).1.take (scrubLoop level zoom k t arr w).2
        = arr.take w ++ (orig.drop t).filter (keepTask level zoom) := by
  intro k
  induction k with
  | zero =>
    intro t arr w ht _ _ _
    have : orig.drop t = [] := List.drop_of_length_le (by omega)
    simp [scrubLoop, this]
  | succ k ih =>
    intro t arr w ht hlen hw hdrop
    have hto : t < orig.length := by omega
    have hcons : orig.drop t = orig[t] :: orig.drop (t + 1) := List.drop_eq_getElem_cons hto
    have hget : arr[t]? = some orig[t] := by
      have h := List.getElem?_drop arr t 0
      rw [hdrop, hcons, Nat.add_zero, List.getElem?_cons_zero] at h
      exact h.symm
    have hdrop1 : arr.drop (t + 1) = orig.drop (t + 1) := by
      rw [← List.drop_drop, ← List.drop_drop, hdrop]
    rw [scrubLoop, hget]
    simp only []
    by_cases hk : keepTask level zoom orig[t] = true
    · rw [if_pos hk]
      rw [ih (t + 1) (arr.set w orig[t]) (w + 1) (by omega) (by simp [hlen]) (by omega)
        (by rw [List.drop_set_of_lt _ _ (by omega)]; exact hdrop1)]
      rw [hcons, List.filter_cons_of_pos hk, List.take_succ,
        List.getElem?_set_self (by omega), List.set_take,
        List.set_eq_of_length_le (by simp)]
      simp
    · rw [if_neg hk]
      rw [ih (t + 1) arr w (by omega) hlen (by omega) hdrop1]
      rw [hcons, List.filter_cons_of_neg hk]

/-- The filter loop of `main` is the filter by its condition. -/
theorem scrubTasks_eq_filter (level : Int) (zoom : List Char) (tasks : List Task) :
    scrubTasks level zoom tasks = tasks.filter (keepTask level zoom) := by
  have h := scrubLoop_spec level zoom tasks tasks.length 0 tasks 0 (by simp) rfl (le_refl _) rfl
  simpa [scrubTasks] using h

/-! ## Position lemmas -/

/-- A pair whose end is its start has a span of `0`, or of `1` from a Sunday: the
resolver takes `1` in both cases. -/
theorem getWeekdaysBetween_self (s : Int) :
    getWeekdaysBetween s s = if weekday s = 0 then 1 else 0 := by
  have hsub : timeSub (addDate s (-(weekday s))) (addDate s (-(weekday s))) = 0 := by
    simp [timeSub, maxDuration, minDuration]
  have htr : durationTruncate 0 hours24 = 0 := by decide
  unfold getWeekdaysBetween
  simp only [hsub, htr]
  have : roundDiv (0 / hours24) 7 = 0 := by decide
  rw [this]
  split_ifs <;> omega

/-- The per-day width the resolver derives from a tick of the driver is one pixel
less than `dayWidth`. -/
theorem goDiv_tick_width (dayWidth tickSkips : Int) (hK : 1 ≤ tickSkips) (hdw : 1 ≤ dayWidth) :
    goDiv (dayWidth * tickSkips - 1) tickSkips = some (dayWidth - 1) := by
  have hnn : 0 ≤ dayWidth * tickSkips - 1 := by nlinarith
  rw [goDiv, if_neg (by omega), Int.tdiv_eq_ediv hnn (by omega)]
  congr 1
  have h1 : dayWidth * tickSkips - 1 = (tickSkips - 1) + (dayWidth - 1) * tickSkips := by ring
  rw [h1, Int.add_mul_ediv_right _ _ (by omega), Int.ediv_eq_zero_of_lt (by omega) (by omega)]
  ring

/-- On ticks as the driver builds them, a pair that the resolver places gets the
width `(dayWidth - 1) * durationDays`. -/
theorem barLoop_width (dayWidth tickSkips : Int) (hK : 1 ≤ tickSkips) (hdw : 1 ≤ dayWidth)
    (start durationDays : Int) (ticks : List Tick)
    (hall : ∀ t ∈ ticks, t.x2 - t.x1 = dayWidth * tickSkips - 1 ∧
      t.durationBusinessDays = tickSkips)
    (x1 x2 : Int) (h : barLoop start durationDays ticks = BarResult.positions x1 x2) :
    x2 = x1 + (dayWidth - 1) * durationDays := by
  induction ticks with
  | nil => simp [barLoop] at h
  | cons tick rest ih =>
    have ht := hall tick (List.mem_cons_self _ _)
    have hdiv := goDiv_tick_width dayWidth tickSkips hK hdw
    rw [barLoop] at h
    rw [ht.1, ht.2, hdiv] at h
    simp only [] at h
    split_ifs at h with h1 h2
    · injection h with ha hb; rw [← hb, ← ha]
    · injection h with ha hb; rw [← hb, ← ha]
    · exact ih (fun t htm => hall t (List.mem_cons_of_mem _ htm)) h

/-- On the tick table of the driver, a pair whose end is its start gets the width
`dayWidth - 1`, whatever the tick that places it. -/
theorem getBarPositions_zero_span (minDate dayWidth tickSkips width : Int)
    (hK : 1 ≤ tickSkips) (hdw : 1 ≤ dayWidth) (ticks : List Tick)
    (hticks : tickPositions minDate dayWidth tickSkips width = some ticks)
    (start x1 x2 : Int) (h : getBarPositions ticks start start = BarResult.positions x1 x2) :
    x2 = x1 + dayWidth - 1 := by
  obtain ⟨rest, hrest, -, -, -, hall⟩ :=
    tickPositions_spec minDate dayWidth tickSkips width hK hdw
  rw [hticks] at hrest
  injection hrest with hrest
  subst hrest
  have hall2 : ∀ t ∈ ({ x1 := 0
                        x2 := dayWidth * tickSkips - 1
                        startDate := truncateDay minDate
                        durationBusinessDays := tickSkips } :: rest : List Tick),
      t.x2 - t.x1 = dayWidth * tickSkips - 1 ∧ t.durationBusinessDays = tickSkips := by
    intro t ht
    rcases List.mem_cons.mp ht with rfl | ht
    · exact ⟨by simp, rfl⟩
    · exact hall t ht
  rw [getBarPositions] at h
  have hw := barLoop_width dayWidth tickSkips hK hdw start _ _ hall2 x1 x2 h
  have hdur : (if getWeekdaysBetween start start = 0 then getWeekdaysBetween start start + 1
      else getWeekdaysBetween start start) = 1 := by
    rw [getWeekdaysBetween_self]
    by_cases hs : weekday start = 0 <;> simp [hs]
  rw [hw, hdur]
  ring

/-- On the tick table of the driver, a pair with a span of at least one business
day gets the width `(dayWidth - 1) * span`: positive from `dayWidth = 2` on, and
`0` at `dayWidth = 1`. -/
theorem getBarPositions_span (minDate dayWidth tickSkips width : Int)
    (hK : 1 ≤ tickSkips) (hdw : 1 ≤ dayWidth) (ticks : List Tick)
    (hticks : tickPositions minDate dayWidth tickSkips width = some ticks)
    (start end_ x1 x2 : Int) (hspan : 1 ≤ getWeekdaysBetween start end_)
    (h : getBarPositions ticks start end_ = BarResult.positions x1 x2) :
    x2 = x1 + (dayWidth - 1) * getWeekdaysBetween start end_ := by
  obtain ⟨rest, hrest, -, -, -, hall⟩ :=
    tickPositions_spec minDate dayWidth tickSkips width hK hdw
  rw [hticks] at hrest
  injection hrest with hrest
  subst hrest
  have hall2 : ∀ t ∈ ({ x1 := 0
                        x2 := dayWidth * tickSkips - 1
                        startDate := truncateDay minDate
                        durationBusinessDays := tickSkips } :: rest : List Tick),
      t.x2 - t.x1 = dayWidth * tickSkips - 1 ∧ t.durationBusinessDays = tickSkips := by
    intro t ht
    rcases List.mem_cons.mp ht with rfl | ht
    · exact ⟨by simp, rfl⟩
    · exact hall t ht
  rw [getBarPositions] at h
  have hw := barLoop_width dayWidth tickSkips hK hdw start _ _ hall2 x1 x2 h
  rw [hw, if_neg (by omega)]

/-! ## The claims -/

/-- C1 at a failing input: Sunday 7 January 2024 is no working day, so the
day-by-day scan counts `0` from that Sunday to itself and `0` from it to the
Monday after, and `getWeekdaysBetween` returns `1` for both.  The correction for
a Sunday is made at the end of the range only: `getWeekdaysBetween_eq_naive`
gives the count of the scan from every other day of the week, and
`getWeekdaysBetween_from_sunday` one more than it from every Sunday. -/
theorem getWeekdaysBetween_from_sunday_off_by_one :
    weekday 1704585600 = 0 ∧
      getWeekdaysBetween 1704585600 1704585600 = 1 ∧
      naiveWeekdays 0 1704585600 = 0 ∧
      getWeekdaysBetween 1704585600 (addDate 1704585600 1) = 1 ∧
      naiveWeekdays 1 1704585600 = 0 := by
  decide

/-- C2 at a failing input: the plan `quarterTasks` has the date range from Monday
1 January 2024, 08:00, to Wednesday 27 March 2024, 17:00, of 62 business days; at
the width `1024` the per-day width is `16`, the tick loop stops at pixel
`1024 - 3*W_PADDING` after 61 ticks, and the task that starts on Tuesday 26
March, inside the date range, reaches the fatal branch of `getBarPositions`. -/
theorem getBarPositions_fatal_in_range :
    dateBounds quarterTasks = some (1704096000, 1711558800) ∧
      (1704096000 : Int) ≤ 1711440000 ∧ (1711440000 : Int) < 1711558800 ∧
      getWeekdaysBetween 1704096000 1711558800 = 62 ∧
      driverDayWidth 0 quarterTasks = some 16 ∧
      (driverTicks 0 1 quarterTasks).map List.length = some 61 ∧
      (driverTicks 0 1 quarterTasks).map
          (fun ticks => getBarPositions ticks 1711440000 1711472400)
        = some BarResult.fatal := by
  decide!

/-- C3. For every anchor date `minDate`, every width, every granularity
`tickSkips ≥ 1` and every per-day width `dayWidth ≥ 1`, the tick loop of the
driver ends and, for every two consecutive ticks `i`, `i + 1` of the table,
`ticks[i].x2 + 1 = ticks[i+1].x1` and `ticks[i].startDate < ticks[i+1].startDate`. -/
theorem tickPositions_contiguous_increasing (minDate dayWidth tickSkips width : Int)
    (hK : 1 ≤ tickSkips) (hdw : 1 ≤ dayWidth) :
    ∃ ticks, tickPositions minDate dayWidth tickSkips width = some ticks ∧
      ∀ (i : Nat) (a b : Tick), ticks[i]? = some a → ticks[i + 1]? = some b →
        a.x2 + 1 = b.x1 ∧ a.startDate < b.startDate := by
  obtain ⟨rest, hticks, hchain, -, -, -⟩ :=
    tickPositions_spec minDate dayWidth tickSkips width hK hdw
  refine ⟨_, hticks, ?_⟩
  intro i a b ha hb
  have hc : List.Chain' Consecutive
      ({ x1 := 0
         x2 := dayWidth * tickSkips - 1
         startDate := truncateDay minDate
         durationBusinessDays := tickSkips } :: rest) := hchain
  rw [List.chain'_iff_get] at hc
  obtain ⟨hi, rfl⟩ := List.getElem?_eq_some.mp ha
  obtain ⟨hi1, rfl⟩ := List.getElem?_eq_some.mp hb
  exact hc i (by omega)

/-- C3 at Monday 1 January 2024, 08:00, with `dayWidth = 198`, `tickSkips = 1` and
the width `1024`. -/
theorem tickPositions_contiguous_increasing_witness :
    (1 : Int) ≤ 1 ∧ (1 : Int) ≤ 198 ∧
    ∃ ticks, tickPositions 1704096000 198 1 1024 = some ticks ∧
      ∀ (i : Nat) (a b : Tick), ticks[i]? = some a → ticks[i + 1]? = some b →
        a.x2 + 1 = b.x1 ∧ a.startDate < b.startDate :=
  ⟨by decide, by decide,
    tickPositions_contiguous_increasing 1704096000 198 1 1024 (by decide) (by decide)⟩

/-- C4. For every date `d`, on a working day or at a weekend and at any time of
day, and every amount `businessDays`, whole or fractional (the bound
`businessDays ≥ 0` of the claim is not needed), the date
`addWeekdaysToDate d businessDays` is neither a Saturday nor a Sunday. -/
theorem addWeekdaysToDate_never_weekend (d : Int) (businessDays : ℚ) :
    weekday (addWeekdaysToDate d businessDays) ≠ 6 ∧
      weekday (addWeekdaysToDate d businessDays) ≠ 0 := by
  have h := weekday_adjustForWeekend
    (addMinutes (stepDays (truncToInt businessDays).toNat d)
      (truncToInt (1440 * (businessDays - (truncToInt businessDays : ℚ)))))
  exact ⟨h.2, h.1⟩

/-- C5. The task filter of the driver returns the sub-sequence, in input order, of
the tasks whose id has at most `level` dot-separated segments and for which the
zoom is empty, or is the id, or followed by a dot starts the id; a task is kept
exactly when these hold.  For the ids `1`, `1.1`, `1.2`, `2`, the depth `1`
leaves `1` and `2`, and the zoom `1` with the depth `2` leaves `1`, `1.1` and
`1.2`. -/
theorem scrubTasks_eq_retained (level : Int) (zoom : List Char) (tasks : List Task) :
    scrubTasks level zoom tasks = tasks.filter (fun t => decide (Retained level zoom t)) ∧
      (∀ t, t ∈ scrubTasks level zoom tasks ↔ t ∈ tasks ∧ Retained level zoom t) ∧
      (scrubTasks 1 [] exampleTasks).map Task.id = [['1'], ['2']] ∧
      (scrubTasks 2 ['1'] exampleTasks).map Task.id
        = [['1'], ['1', '.', '1'], ['1', '.', '2']] := by
  have hfun : keepTask level zoom = fun t => decide (Retained level zoom t) := by
    funext t
    rw [Bool.eq_iff_iff, keepTask_iff, decide_eq_true_iff]
  refine ⟨?_, ?_, by decide, by decide⟩
  · rw [scrubTasks_eq_filter, hfun]
  · intro t
    rw [scrubTasks_eq_filter, List.mem_filter, keepTask_iff]

/-- C6 at a failing input: the plan `twoYearTasks` has a date range of 526
business days, so at the width `1024` the per-day width is `1`; its task spans
525 business days and `getBarPositions` returns `x1 = 0` and `x2 = 0`, a bar
without width.  The resolver takes `(tick.x2 - tick.x1) / tickSkips` for the
width of a day, which is `dayWidth - 1` (`goDiv_tick_width`), so
`getBarPositions_span` gives the width `(dayWidth - 1) * span` on every tick
table. -/
theorem getBarPositions_empty_at_dayWidth_one :
    driverDayWidth 0 twoYearTasks = some 1 ∧
      getWeekdaysBetween 1704096000 1767632400 = 525 ∧
      (driverTicks 0 1 twoYearTasks).map
          (fun ticks => getBarPositions ticks 1704096000 1767632400)
        = some (BarResult.positions 0 0) := by
  decide!

/-- C7 at a failing input: for the three tasks of the end-to-end example at the
width `1024` the per-day width is `198`, and the milestone `1.1`, whose end is
its start, gets `x1 = 0` and `x2 = 197`, one pixel short of `x1 + dayWidth`.
The resolver takes `(tick.x2 - tick.x1) / tickSkips` for the width of a day,
which is `dayWidth - 1` (`goDiv_tick_width`), so `getBarPositions_zero_span`
gives `x2 = x1 + dayWidth - 1` on every tick table. -/
theorem getBarPositions_zero_span_one_short :
    driverDayWidth 0 (scrubTasks 2 [] endToEndTasks) = some 198 ∧
      (driverTicks 0 1 (scrubTasks 2 [] endToEndTasks)).map
          (fun ticks => getBarPositions ticks 1704096000 1704096000)
        = some (BarResult.positions 0 197) ∧
      (197 : Int) ≠ 0 + 198 := by
  decide!

/-- C8, as stated, fails: with the width `1024` and a span of `100` business days
the per-day width is `9` and the driver generates `109` ticks, which is none of
`100`, `99` and `101`. -/
theorem tick_count_not_span :
    (1 : Int) ≤ 100 ∧ Int.tdiv (1024 - W_PADDING * 2) 100 = 9 ∧
      (tickPositions 1704096000 (Int.tdiv (1024 - W_PADDING * 2) 100) 1 1024).map List.length
        = some 109 ∧
      ¬ ((109 : Int) = 100 ∨ (109 : Int) = 100 - 1 ∨ (109 : Int) = 100 + 1) := by
  decide!

/-- C8, amended. For granularity `1`, every width `W` and every span `S ≥ 1` with
`dayWidth = (W - 2*W_PADDING) / S ≥ 1`, the tick loop of the driver ends and the
number `n` of ticks is the least `n ≥ 1` with `n * dayWidth ≥ W - 3*W_PADDING`;
it is `S`, `S - 1` or `S + 1` when `dayWidth ≥ 9` and `S ≤ dayWidth + 17`. -/
theorem tick_count (minDate W S : Int) (hS : 1 ≤ S)
    (hdw : 1 ≤ Int.tdiv (W - W_PADDING * 2) S) :
    ∃ ticks, tickPositions minDate (Int.tdiv (W - W_PADDING * 2) S) 1 W = some ticks ∧
      1 ≤ ticks.length ∧
      W - W_PADDING * 3 ≤ (ticks.length : Int) * Int.tdiv (W - W_PADDING * 2) S ∧
      (2 ≤ ticks.length →
        ((ticks.length : Int) - 1) * Int.tdiv (W - W_PADDING * 2) S < W - W_PADDING * 3) ∧
      (9 ≤ Int.tdiv (W - W_PADDING * 2) S → S ≤ Int.tdiv (W - W_PADDING * 2) S + 17 →
        (ticks.length : Int) = S ∨ (ticks.length : Int) = S - 1 ∨
          (ticks.length : Int) = S + 1) := by
  obtain ⟨hlo, hhi⟩ := tdiv_bounds (W - W_PADDING * 2) S hS hdw
  generalize Int.tdiv (W - W_PADDING * 2) S = dw at *
  obtain ⟨rest, hticks, -, hlen, hlast, -⟩ := tickPositions_spec minDate dw 1 W (by decide) hdw
  rw [mul_one] at hlen hlast
  refine ⟨_, hticks, by simp, ?_, ?_, ?_⟩
  · simp only [List.length_cons]; push_cast; exact hlen
  · intro h2
    simp only [List.length_cons] at h2 ⊢
    push_cast
    have hr : rest ≠ [] := by
      intro h; subst h; simp at h2
    have := hlast hr
    simpa using this
  · intro h9 h17
    simp only [List.length_cons]
    push_cast
    simp only [W_PADDING] at *
    have hn0 : (0 : Int) ≤ rest.length := Int.natCast_nonneg _
    by_cases hsmall : (rest.length : Int) + 1 ≤ S - 2
    · exfalso
      have : ((rest.length : Int) + 1) * dw ≤ (S - 2) * dw :=
        mul_le_mul_of_nonneg_right hsmall (by omega)
      nlinarith
    · by_cases hbig : S + 2 ≤ (rest.length : Int) + 1
      · exfalso
        have hr : rest ≠ [] := by
          intro h; subst h; simp at hbig; omega
        have h1 := hlast hr
        have : (S + 1) * dw ≤ (rest.length : Int) * dw :=
          mul_le_mul_of_nonneg_right (by omega) (by omega)
        nlinarith
      · omega

/-- C8, amended, at the width `1024` and a span of `5` business days from Monday
1 January 2024, 08:00. -/
theorem tick_count_witness :
    (1 : Int) ≤ 5 ∧ 1 ≤ Int.tdiv (1024 - W_PADDING * 2) 5 ∧
    ∃ ticks, tickPositions 1704096000 (Int.tdiv (1024 - W_PADDING * 2) 5) 1 1024 = some ticks ∧
      1 ≤ ticks.length ∧
      1024 - W_PADDING * 3 ≤ (ticks.length : Int) * Int.tdiv (1024 - W_PADDING * 2) 5 ∧
      (2 ≤ ticks.length →
        ((ticks.length : Int) - 1) * Int.tdiv (1024 - W_PADDING * 2) 5 < 1024 - W_PADDING * 3) ∧
      (9 ≤ Int.tdiv (1024 - W_PADDING * 2) 5 → 5 ≤ Int.tdiv (1024 - W_PADDING * 2) 5 + 17 →
        (ticks.length : Int) = 5 ∨ (ticks.length : Int) = 5 - 1 ∨
          (ticks.length : Int) = 5 + 1) :=
  ⟨by decide, by decide, tick_count 1704096000 1024 5 (by decide) (by decide)⟩

/-- C9, as stated, fails: from Saturday 6 January 2024 the amounts `0` and `1`
both give Monday 8 January 2024, so `n = 0 < m = 1` does not give a strictly
earlier date. -/
theorem addWeekdaysToDate_not_strict_from_saturday :
    weekday 1704499200 = 6 ∧ (0 : Int) ≤ 0 ∧ (0 : Int) < 1 ∧
      addWeekdaysToDate 1704499200 ((0 : Int) : ℚ) = 1704672000 ∧
      addWeekdaysToDate 1704499200 ((1 : Int) : ℚ) = 1704672000 ∧
      ¬ (addWeekdaysToDate 1704499200 ((0 : Int) : ℚ)
          < addWeekdaysToDate 1704499200 ((1 : Int) : ℚ)) := by
  decide!

/-- C9, amended. For every date `d` and all integers `0 ≤ n < m`,
`addWeekdaysToDate d n` is strictly earlier than `addWeekdaysToDate d m`, unless
`d` is a Saturday or a Sunday, `n = 0` and `m = 1`, where the two dates are
equal. -/
theorem addWeekdaysToDate_strictMono (d n m : Int) (hn : 0 ≤ n) (hnm : n < m) :
    (((weekday d ≠ 0 ∧ weekday d ≠ 6) ∨ 1 ≤ n ∨ 2 ≤ m) →
        addWeekdaysToDate d (n : ℚ) < addWeekdaysToDate d (m : ℚ)) ∧
      (¬ ((weekday d ≠ 0 ∧ weekday d ≠ 6) ∨ 1 ≤ n ∨ 2 ≤ m) →
        addWeekdaysToDate d (n : ℚ) = addWeekdaysToDate d (m : ℚ)) := by
  rw [addWeekdaysToDate_intCast, addWeekdaysToDate_intCast]
  constructor
  · intro hd
    by_cases hwd : weekday d ≠ 0 ∧ weekday d ≠ 6
    · exact adjust_stepDays_lt d (by omega) (Or.inl hwd)
    · by_cases h1 : 1 ≤ n
      · exact adjust_stepDays_lt d (by omega) (Or.inr (by omega))
      · have hm : 2 ≤ m := by tauto
        have hn0 : n.toNat = 0 := by omega
        rw [hn0]
        exact adjust_stepDays_zero_lt d (by omega) (by omega)
  · intro hd
    have hn0 : n.toNat = 0 := by omega
    have hm1 : m.toNat = 1 := by omega
    rw [hn0, hm1]
    exact adjust_stepDays_zero_eq_one d (by omega)

/-- C9, amended, at Friday 5 January 2024, 09:00, with `n = 0` and `m = 1`. -/
theorem addWeekdaysToDate_strictMono_witness :
    (0 : Int) ≤ 0 ∧ (0 : Int) < 1 ∧
      ((((weekday 1704445200 ≠ 0 ∧ weekday 1704445200 ≠ 6) ∨ (1 : Int) ≤ 0 ∨ (2 : Int) ≤ 1) →
        addWeekdaysToDate 1704445200 ((0 : Int) : ℚ)
          < addWeekdaysToDate 1704445200 ((1 : Int) : ℚ)) ∧
      (¬ ((weekday 1704445200 ≠ 0 ∧ weekday 1704445200 ≠ 6) ∨ (1 : Int) ≤ 0 ∨ (2 : Int) ≤ 1) →
        addWeekdaysToDate 1704445200 ((0 : Int) : ℚ)
          = addWeekdaysToDate 1704445200 ((1 : Int) : ℚ))) :=
  ⟨by decide, by decide, addWeekdaysToDate_strictMono 1704445200 0 1 (by decide) (by decide)⟩

/-- C10, as stated, fails: from Saturday 6 January 2024, 12:00, a quarter of a day
gives Monday 18:00 and three quarters of a day give Monday 06:00, an earlier
date for the larger amount.  Both amounts and both minute counts, `360` and
`1080`, are exact in `float64`. -/
theorem addWeekdaysToDate_not_mono_from_saturday :
    weekday 1704542400 = 6 ∧ (0 : ℚ) ≤ 1 / 4 ∧ (1 / 4 : ℚ) ≤ 3 / 4 ∧
      addWeekdaysToDate 1704542400 (1 / 4) = 1704736800 ∧
      addWeekdaysToDate 1704542400 (3 / 4) = 1704693600 ∧
      ¬ (addWeekdaysToDate 1704542400 (1 / 4) ≤ addWeekdaysToDate 1704542400 (3 / 4)) := by
  refine ⟨by decide, by norm_num, by norm_num, by decide!, by decide!, by decide!⟩

/-- C10, amended. For every date `d` and all amounts `0 ≤ a ≤ b`, whole or
fractional, where `d` is a working day or `1 ≤ a` or `2 ≤ b`,
`addWeekdaysToDate d a` is not later than `addWeekdaysToDate d b`. -/
theorem addWeekdaysToDate_mono (d : Int) (a b : ℚ) (ha : 0 ≤ a) (hab : a ≤ b)
    (hd : (weekday d ≠ 0 ∧ weekday d ≠ 6) ∨ 1 ≤ a ∨ 2 ≤ b) :
    addWeekdaysToDate d a ≤ addWeekdaysToDate d b := by
  rcases hd with hd | hd | hd
  · exact addWeekdaysToDate_mono_aux d a b ha hab (Or.inl hd)
  · exact addWeekdaysToDate_mono_aux d a b ha hab (Or.inr hd)
  · by_cases h1 : 1 ≤ a
    · exact addWeekdaysToDate_mono_aux d a b ha hab (Or.inr h1)
    · have hb : 0 ≤ b := le_trans ha hab
      have hna : truncToInt a = 0 := by
        rw [truncToInt_eq_floor a ha, Int.floor_eq_iff]
        constructor
        · simpa using ha
        · push_cast; linarith
      have hnb : 2 ≤ truncToInt b := by
        rw [truncToInt_eq_floor b hb]
        exact Int.le_floor.mpr (by exact_mod_cast hd)
      have hma := minutes_bounds a ha
      have hmb := minutes_bounds b hb
      unfold addWeekdaysToDate
      simp only []
      rw [hna] at hma ⊢
      calc adjustForWeekend (addMinutes (stepDays (0 : Int).toNat d)
              (truncToInt (1440 * (a - ((0 : Int) : ℚ)))))
          ≤ stepDays 2 d := adjust_addMinutes_le_two_steps d _ hma.1 hma.2
        _ ≤ stepDays (truncToInt b).toNat d := stepDays_le_of_le (by omega) d
        _ ≤ addMinutes (stepDays (truncToInt b).toNat d)
              (truncToInt (1440 * (b - (truncToInt b : ℚ)))) := by
            simp only [addMinutes]; omega
        _ ≤ _ := le_adjustForWeekend _

/-- C10, amended, at Friday 5 January 2024, 12:00, with a quarter and three
quarters of a day. -/
theorem addWeekdaysToDate_mono_witness :
    (0 : ℚ) ≤ 1 / 4 ∧ (1 / 4 : ℚ) ≤ 3 / 4 ∧
      ((weekday 1704456000 ≠ 0 ∧ weekday 1704456000 ≠ 6) ∨ (1 : ℚ) ≤ 1 / 4
        ∨ (2 : ℚ) ≤ 3 / 4) ∧
      addWeekdaysToDate 1704456000 (1 / 4) ≤ addWeekdaysToDate 1704456000 (3 / 4) :=
  ⟨by norm_num, by norm_num, Or.inl (by decide),
    addWeekdaysToDate_mono 1704456000 (1 / 4) (3 / 4) (by norm_num) (by norm_num)
      (Or.inl (by decide))⟩

end Csv2Svg
